import Mathlib

/-!
Verification of the distributed event plane of the `talker` repository.

The embedding follows `talker/mesh.py` (peer wire format, flood routing,
seen-cache deduplication, the in-file `TopologyObserver`),
`talker/distributed.py` (`ScatterGatherMixin`), and `talker/base.py`.
Strings are modelled as `List Char`; Python `dict`s become association
lists; Python `set`s become `Finset`s; wall-clock expiry checks
(`now - last_rotation >= EXPIRY`) become explicit `Bool` inputs.
-/

namespace Talker

/-- Strings of the wire protocol, modelled as lists of characters. -/
abbrev Str := List Char

/-- Split a string at the first occurrence of `c`:
the behaviour of one round of Python `str.split(c, ...)`.
Returns `none` when `c` does not occur. -/
def splitFirst (c : Char) : Str → Option (Str × Str)
  | [] => none
  | x :: xs =>
    if x = c then some ([], xs)
    else (splitFirst c xs).map (fun p => (x :: p.1, p.2))

/-- Python `str.partition(c)` restricted to the two components the code
uses: the part before the first `c` and the part after it (the whole
string and `""` when `c` is absent). -/
def chPartition (c : Char) (s : Str) : Str × Str :=
  match splitFirst c s with
  | some p => p
  | none => (s, [])

theorem splitFirst_append (c : Char) (a b : Str) (h : c ∉ a) :
    splitFirst c (a ++ c :: b) = some (a, b) := by
  induction a with
  | nil => simp [splitFirst]
  | cons x xs ih =>
    have hx : x ≠ c := fun hxc => h (by simp [hxc])
    have hxs : c ∉ xs := fun hc => h (List.mem_cons_of_mem _ hc)
    simp [splitFirst, hx, ih hxs]

theorem splitFirst_none (c : Char) (s : Str) (h : c ∉ s) :
    splitFirst c s = none := by
  induction s with
  | nil => rfl
  | cons x xs ih =>
    have hx : x ≠ c := fun hxc => h (by simp [hxc])
    have hxs : c ∉ xs := fun hc => h (List.mem_cons_of_mem _ hc)
    simp [splitFirst, hx, ih hxs]

/-- The character standing for decimal digit `d` (`str` of one digit). -/
def digitCh (d : Nat) : Char :=
  match d with
  | 0 => '0' | 1 => '1' | 2 => '2' | 3 => '3' | 4 => '4'
  | 5 => '5' | 6 => '6' | 7 => '7' | 8 => '8' | _ => '9'

def isDigitCh (c : Char) : Bool := 48 ≤ c.toNat && c.toNat ≤ 57

def chVal (c : Char) : Nat := c.toNat - 48

/-- Most-significant-first decimal digits by repeated division; the
fuel argument only bounds the recursion depth. -/
def natToDecAux : Nat → Nat → Str
  | 0, _ => []
  | fuel + 1, n => if n = 0 then [] else natToDecAux fuel (n / 10) ++ [digitCh (n % 10)]

/-- Python `str(n)` for a natural number: its decimal digits. -/
def natToDec (n : Nat) : Str :=
  if n = 0 then ['0'] else natToDecAux n n

theorem natToDecAux_eq : ∀ (fuel n : Nat), n ≤ fuel →
    natToDecAux fuel n = (Nat.digits 10 n).reverse.map digitCh := by
  intro fuel
  induction fuel with
  | zero =>
    intro n hn
    interval_cases n
    simp [natToDecAux]
  | succ f ih =>
    intro n hn
    by_cases h0 : n = 0
    · subst h0; simp [natToDecAux]
    · have hdiv : n / 10 ≤ f := by
        have := Nat.div_lt_self (Nat.pos_of_ne_zero h0) (by norm_num : (1 : Nat) < 10)
        omega
      rw [natToDecAux, if_neg h0, ih _ hdiv,
        Nat.digits_def' (by norm_num : (1 : Nat) < 10) (Nat.pos_of_ne_zero h0)]
      simp

theorem natToDec_eq_digits (n : Nat) :
    natToDec n = if n = 0 then ['0'] else (Nat.digits 10 n).reverse.map digitCh := by
  unfold natToDec
  by_cases h0 : n = 0
  · simp [h0]
  · rw [if_neg h0, if_neg h0, natToDecAux_eq n n le_rfl]

/-- Python `int(s)` restricted to the strings the peer protocol produces
(non-empty all-digit strings); anything else raises, modelled as `none`. -/
def decToNat (s : Str) : Option Nat :=
  if s.isEmpty || !s.all isDigitCh then none
  else some (Nat.ofDigits 10 ((s.map chVal).reverse))

theorem digitCh_val {d : Nat} (h : d < 10) : chVal (digitCh d) = d := by
  interval_cases d <;> rfl

theorem digitCh_isDigit {d : Nat} (h : d < 10) : isDigitCh (digitCh d) = true := by
  interval_cases d <;> rfl

theorem digitCh_ne_pipe (d : Nat) : digitCh d ≠ '|' := by
  unfold digitCh
  split <;> decide

theorem natToDec_ne_pipe (n : Nat) : '|' ∉ natToDec n := by
  rw [natToDec_eq_digits]
  split
  · decide
  · intro hmem
    obtain ⟨d, _, hd⟩ := List.mem_map.mp hmem
    exact digitCh_ne_pipe d hd

theorem decToNat_natToDec (n : Nat) : decToNat (natToDec n) = some n := by
  by_cases h : n = 0
  · subst h; rfl
  · have hdig : ∀ d ∈ Nat.digits 10 n, d < 10 := fun d hd =>
      Nat.digits_lt_base (by norm_num) hd
    have hne : Nat.digits 10 n ≠ [] := Nat.digits_ne_nil_iff_ne_zero.mpr h
    rw [natToDec_eq_digits]
    unfold decToNat
    rw [if_neg h]
    have hall : ((Nat.digits 10 n).reverse.map digitCh).all isDigitCh = true := by
      rw [List.all_eq_true]
      intro c hc
      obtain ⟨d, hdm, rfl⟩ := List.mem_map.mp hc
      exact digitCh_isDigit (hdig d (List.mem_reverse.mp hdm))
    have hnonempty : ((Nat.digits 10 n).reverse.map digitCh).isEmpty = false := by
      rw [List.isEmpty_eq_false_iff_exists_mem]
      obtain ⟨d, hd⟩ := List.exists_mem_of_ne_nil _ hne
      exact ⟨digitCh d, List.mem_map_of_mem _ (List.mem_reverse.mpr hd)⟩
    have hmap : List.map (chVal ∘ digitCh) (Nat.digits 10 n) = Nat.digits 10 n := by
      have : ∀ d ∈ Nat.digits 10 n, (chVal ∘ digitCh) d = id d := by
        intro d hd
        exact digitCh_val (hdig d hd)
      rw [List.map_congr_left this, List.map_id]
    simp only [hnonempty, hall, List.map_map, List.map_reverse, List.reverse_reverse,
      Bool.not_true, Bool.or_false, Bool.false_or]
    simp [hmap, hne, Nat.ofDigits_digits]
    exact fun x hx => digitCh_isDigit (hdig x hx)

/-! ### Wire format (`talker/mesh.py`, `Server._format_peer_line` / `Server._parse_peer_line`) -/

/-- `Server._format_peer_line(id, message_id, message, broadcast)`:
`ID|MESSAGE_ID|MESSAGE`, prefixed with `!` for a non-broadcast frame. -/
def format_peer_line (id : Str) (message_id : Nat) (message : Str) (broadcast : Bool) : Str :=
  if broadcast then id ++ '|' :: natToDec message_id ++ '|' :: message
  else '!' :: (id ++ '|' :: natToDec message_id ++ '|' :: message)

/-- The shared body of `Server._parse_peer_line`: Python
`line.split('|', 2)` unpacked into exactly three parts, with the second
converted by `int`.  Fewer than two separators or a malformed integer
raise, modelled as `none`. -/
def parseBody (s : Str) : Option (Str × Nat × Str) := do
  let p1 ← splitFirst '|' s
  let p2 ← splitFirst '|' p1.2
  let mid ← decToNat p2.1
  pure (p1.1, mid, p2.2)

/-- `Server._parse_peer_line(line)`: source, message id, message and
broadcast flag.  A leading `!` marks a non-broadcast frame and is
stripped before splitting. -/
def parse_peer_line (line : Str) : Option (Str × Nat × Str × Bool) :=
  if line.head? = some '!' then
    (parseBody line.tail).map (fun x => (x.1, x.2.1, x.2.2, false))
  else
    (parseBody line).map (fun x => (x.1, x.2.1, x.2.2, true))

theorem parseBody_format (src : Str) (mid : Nat) (msg : Str) (h : '|' ∉ src) :
    parseBody (src ++ '|' :: natToDec mid ++ '|' :: msg) = some (src, mid, msg) := by
  have h1 := splitFirst_append '|' src (natToDec mid ++ '|' :: msg) h
  have h2 := splitFirst_append '|' (natToDec mid) msg (natToDec_ne_pipe mid)
  simp [parseBody, h1, h2, decToNat_natToDec]

/-- C9: wire-format round trip.  For every source containing no `|`
(and, in the broadcast form, not beginning with `!`), every message id
and every payload — which may itself contain `|`, the parser splitting a
bounded number of times — parsing the formatted line recovers exactly
the four fields.  (Message ids in the program are the naturals produced
by the per-server counter.) -/
theorem C9_wire_roundtrip (src : Str) (mid : Nat) (msg : Str) (b : Bool)
    (h1 : '|' ∉ src) (h2 : b = true → src.head? ≠ some '!') :
    parse_peer_line (format_peer_line src mid msg b) = some (src, mid, msg, b) := by
  have hb := parseBody_format src mid msg h1
  cases b with
  | false =>
    unfold format_peer_line parse_peer_line
    rw [if_neg (by decide : ¬(false = true))]
    simp only [List.head?_cons, if_pos rfl, List.tail_cons]
    rw [hb]
    rfl
  | true =>
    have hhd : (src ++ '|' :: natToDec mid ++ '|' :: msg).head? ≠ some '!' := by
      cases src with
      | nil => simp
      | cons c cs =>
        have := h2 rfl
        simpa using this
    unfold format_peer_line parse_peer_line
    rw [if_pos rfl, if_neg hhd, hb]
    rfl

/-- Witness for C9 at a concrete frame whose payload contains `|`. -/
theorem C9_wire_roundtrip_witness :
    (('|' ∉ (['s', '0'] : Str)) ∧ ((true : Bool) = true → (['s', '0'] : Str).head? ≠ some '!')) ∧
    parse_peer_line (format_peer_line ['s', '0'] 7 ['a', '|', 'b'] true)
      = some (['s', '0'], 7, ['a', '|', 'b'], true) :=
  ⟨⟨by decide, by decide⟩,
    C9_wire_roundtrip ['s', '0'] 7 ['a', '|', 'b'] true (by decide) (by decide)⟩

/-! ### The mesh server (`talker/mesh.py`, class `Server`)

Peer links are identified by naturals.  The observer registry
(`broadcast_observers`) is modelled by the set of registered observer
names; an observer's `notify` invocation is recorded as an event rather
than executed.  The wall-clock test `now - last_rotation >=
MESSAGE_CACHE_EXPIRY` becomes the `Bool` argument `expired`. -/

/-- One call to `peer_propagate` writes a line to a set of peer links;
observer notifications are `(peer, source, id, payload)` tuples. -/
structure Effects where
  notified : List (Option Nat × Str × Nat × Str)
  sends : List (Finset Nat × Str)
deriving DecidableEq

def Effects.none : Effects := ⟨[], []⟩

structure MeshState where
  peer_id : Str
  message_id : Nat
  peers : Finset Nat
  /-- keys of `broadcast_observers`. -/
  observers : Finset Str
  /-- current generation `seen[0]` of recently seen `(source, id)` keys. -/
  seen0 : Finset (Str × Nat)
  /-- previous generation `seen[1]`. -/
  seen1 : Finset (Str × Nat)
deriving DecidableEq

/-- `Server.notify_observers(peer, source, id, message)`: split the
message into observer target and payload at the first `|` and notify
the registered observer of that name, if any. -/
def notify_observers (st : MeshState) (peer : Option Nat) (source : Str) (id : Nat)
    (message : Str) : List (Option Nat × Str × Nat × Str) :=
  let tp := chPartition '|' message
  if tp.1 ∈ st.observers then [(peer, source, id, tp.2)] else []

/-- The seen-cache rotation performed in the `finally` block of
`peer_receive`: when the expiry has passed, `seen = [set(), seen[0]]`. -/
def rotateSeen (expired : Bool) (st : MeshState) : MeshState :=
  if expired then { st with seen0 := ∅, seen1 := st.seen0 } else st

/-- `Server.peer_receive(peer, line)`.  `none` models the `ValueError`
escaping from `_parse_peer_line` (raised before the `try` block, so no
rotation happens).  Otherwise: drop own frames, drop seen keys, record
the key, forward broadcast lines to every other peer and notify the
targeted observer, and finally rotate the seen cache if expired. -/
def peer_receive (st : MeshState) (peer : Nat) (line : Str) (expired : Bool) :
    Option (MeshState × Effects) :=
  match parse_peer_line line with
  | Option.none => Option.none
  | some (source, id, message, broadcast) =>
    if source = st.peer_id then
      some (rotateSeen expired st, Effects.none)
    else if (source, id) ∈ st.seen0 ∨ (source, id) ∈ st.seen1 then
      some (rotateSeen expired st, Effects.none)
    else
      let st' := { st with seen0 := insert (source, id) st.seen0 }
      some (rotateSeen expired st',
        { notified := notify_observers st (some peer) source id message,
          sends := if broadcast then [(st.peers.erase peer, line)] else [] })

/-- `Server.peer_broadcast(payload, target)`: prefix the target
observer's name, bump the shared message counter, propagate to every
peer and notify local observers from a `None` peer. -/
def peer_broadcast (st : MeshState) (payload : Str) (target : Option Str) :
    MeshState × Effects :=
  let message := match target with
    | Option.none => payload
    | some t => t ++ '|' :: payload
  let mid := st.message_id + 1
  ({ st with message_id := mid },
   { notified := notify_observers st Option.none st.peer_id mid message,
     sends := [(st.peers, format_peer_line st.peer_id mid message true)] })

/-- `Server.peer_unicast(peer, payload, target)`: like `peer_broadcast`
but the non-broadcast frame goes to a single peer and local observers
are not notified. -/
def peer_unicast (st : MeshState) (peer : Nat) (payload : Str) (target : Option Str) :
    MeshState × Effects :=
  let message := match target with
    | Option.none => payload
    | some t => t ++ '|' :: payload
  let mid := st.message_id + 1
  ({ st with message_id := mid },
   { notified := [],
     sends := [({peer}, format_peer_line st.peer_id mid message false)] })

/-- C8: no self-loop.  A frame whose parsed source equals the receiving
server's own `peer_id` produces no observer notification and no
forwarding (the state at most rotates); every notification produced by
`peer_receive` carries a source different from the local `peer_id`; and
the local fast-path of `peer_broadcast` is the one place observers see
frames whose source is the local `peer_id` (from a `None` peer). -/
theorem C8_no_self_loop :
    (∀ (st : MeshState) (p : Nat) (l : Str) (e : Bool) (id : Nat) (msg : Str) (b : Bool),
      parse_peer_line l = some (st.peer_id, id, msg, b) →
      peer_receive st p l e = some (rotateSeen e st, Effects.none)) ∧
    (∀ (st : MeshState) (p : Nat) (l : Str) (e : Bool) (st' : MeshState) (eff : Effects),
      peer_receive st p l e = some (st', eff) →
      ∀ x ∈ eff.notified, x.2.1 ≠ st.peer_id) ∧
    (∀ (st : MeshState) (payload : Str) (target : Option Str),
      ∀ x ∈ (peer_broadcast st payload target).2.notified,
        x.2.1 = st.peer_id ∧ x.1 = Option.none) := by
  refine ⟨?_, ?_, ?_⟩
  · intro st p l e id msg b hp
    simp [peer_receive, hp]
  · intro st p l e st' eff hrec x hx
    match hp : parse_peer_line l with
    | Option.none => simp [peer_receive, hp] at hrec
    | some (source, id, message, broadcast) =>
      simp only [peer_receive, hp] at hrec
      split at hrec
      · cases hrec
        simp [Effects.none] at hx
      · split at hrec
        · cases hrec
          simp [Effects.none] at hx
        · rename_i hsrc hseen
          cases hrec
          simp only [notify_observers] at hx
          split at hx
          · simp at hx
            subst hx
            exact hsrc
          · simp at hx
  · intro st payload target x hx
    simp only [peer_broadcast, notify_observers] at hx
    split at hx
    · simp at hx
      subst hx
      exact ⟨rfl, rfl⟩
    · simp at hx

/-- Witness for C8: a server with id `A` receiving back its own frame. -/
theorem C8_no_self_loop_witness :
    parse_peer_line (format_peer_line ['A'] 1 ['m'] true)
      = some ((⟨['A'], 0, ∅, ∅, ∅, ∅⟩ : MeshState).peer_id, 1, ['m'], true) ∧
    peer_receive ⟨['A'], 0, ∅, ∅, ∅, ∅⟩ 0 (format_peer_line ['A'] 1 ['m'] true) false
      = some (rotateSeen false ⟨['A'], 0, ∅, ∅, ∅, ∅⟩, Effects.none) :=
  ⟨by decide,
    C8_no_self_loop.1 ⟨['A'], 0, ∅, ∅, ∅, ∅⟩ 0 (format_peer_line ['A'] 1 ['m'] true)
      false 1 ['m'] true (by decide)⟩

/-- Both seen-cache generations together: a key is "seen" iff it is in
either generation. -/
def seenU (st : MeshState) : Finset (Str × Nat) := st.seen0 ∪ st.seen1

theorem peer_receive_seen (st : MeshState) (p : Nat) (l : Str) (e : Bool)
    (src : Str) (mid : Nat) (msg : Str) (b : Bool)
    (hp : parse_peer_line l = some (src, mid, msg, b))
    (hin : src = st.peer_id ∨ (src, mid) ∈ seenU st) :
    peer_receive st p l e = some (rotateSeen e st, Effects.none) := by
  rw [peer_receive, hp]
  dsimp only
  by_cases hsrc : src = st.peer_id
  · rw [if_pos hsrc]
  · rw [if_neg hsrc, if_pos ?_]
    have hmem : (src, mid) ∈ seenU st := hin.resolve_left hsrc
    exact (Finset.mem_union.mp hmem).imp id id

theorem peer_receive_fresh (st : MeshState) (p : Nat) (l : Str) (e : Bool)
    (src : Str) (mid : Nat) (msg : Str) (b : Bool)
    (hp : parse_peer_line l = some (src, mid, msg, b))
    (hsrc : src ≠ st.peer_id) (hnot : (src, mid) ∉ seenU st) :
    peer_receive st p l e =
      some (rotateSeen e { st with seen0 := insert (src, mid) st.seen0 },
        { notified := notify_observers st (some p) src mid msg,
          sends := if b then [(st.peers.erase p, l)] else [] }) := by
  rw [peer_receive, hp]
  dsimp only
  rw [if_neg hsrc, if_neg ?_]
  intro hmem
  exact hnot (Finset.mem_union.mp (Finset.mem_union.mpr hmem) |> Finset.mem_union.mpr)

/-- C3 amended: non-broadcast (direct) frames are never forwarded to any
peer, but — unlike what the claim says — they share the seen-cache
deduplication: a direct frame whose `(source, id)` key is already in
either generation is dropped without notifying any observer, and a fresh
one records its key exactly like a broadcast. -/
theorem C3_direct_frames_amended :
    (∀ (st : MeshState) (p : Nat) (l : Str) (e : Bool) (st' : MeshState) (eff : Effects)
      (src : Str) (mid : Nat) (msg : Str),
      parse_peer_line l = some (src, mid, msg, false) →
      peer_receive st p l e = some (st', eff) → eff.sends = []) ∧
    (∀ (st : MeshState) (p : Nat) (l : Str) (e : Bool) (src : Str) (mid : Nat) (msg : Str),
      parse_peer_line l = some (src, mid, msg, false) →
      src ≠ st.peer_id → (src, mid) ∈ seenU st →
      peer_receive st p l e = some (rotateSeen e st, Effects.none)) ∧
    (∀ (st : MeshState) (p : Nat) (l : Str) (e : Bool) (src : Str) (mid : Nat) (msg : Str),
      parse_peer_line l = some (src, mid, msg, false) →
      src ≠ st.peer_id → (src, mid) ∉ seenU st →
      peer_receive st p l e =
        some (rotateSeen e { st with seen0 := insert (src, mid) st.seen0 },
          { notified := notify_observers st (some p) src mid msg, sends := [] })) := by
  refine ⟨?_, ?_, ?_⟩
  · intro st p l e st' eff src mid msg hp hrec
    by_cases hsrc : src = st.peer_id
    · rw [peer_receive_seen st p l e src mid msg false hp (Or.inl hsrc)] at hrec
      cases hrec
      rfl
    · by_cases hseen : (src, mid) ∈ seenU st
      · rw [peer_receive_seen st p l e src mid msg false hp (Or.inr hseen)] at hrec
        cases hrec
        rfl
      · rw [peer_receive_fresh st p l e src mid msg false hp hsrc hseen] at hrec
        cases hrec
        rfl
  · intro st p l e src mid msg hp hsrc hseen
    exact peer_receive_seen st p l e src mid msg false hp (Or.inr hseen)
  · intro st p l e src mid msg hp hsrc hseen
    rw [peer_receive_fresh st p l e src mid msg false hp hsrc hseen]
    rfl

/-- Counterexample to C3 as stated: the very same direct frame, received
by two servers identical except for the seen cache, is delivered to the
observer in one and silently dropped in the other — so the handling of a
non-broadcast frame does depend on the seen cache. -/
theorem C3_direct_frames_counterexample :
    (⟨['A'], 0, ∅, {['T']}, {(['B'], 1)}, ∅⟩ : MeshState)
      = { (⟨['A'], 0, ∅, {['T']}, ∅, ∅⟩ : MeshState) with seen0 := {(['B'], 1)} } ∧
    (peer_receive ⟨['A'], 0, ∅, {['T']}, {(['B'], 1)}, ∅⟩ 0
        (format_peer_line ['B'] 1 ['T', '|', 'x'] false) false).map (fun r => r.2.notified)
      = some [] ∧
    (peer_receive ⟨['A'], 0, ∅, {['T']}, ∅, ∅⟩ 0
        (format_peer_line ['B'] 1 ['T', '|', 'x'] false) false).map (fun r => r.2.notified)
      = some [(some 0, ['B'], 1, ['x'])] := by
  refine ⟨rfl, ?_, ?_⟩ <;> decide

/-- Witness for the C3 amended theorem: a concrete direct frame, fresh. -/
theorem C3_direct_frames_witness :
    (parse_peer_line (format_peer_line ['B'] 1 ['T', '|', 'x'] false)
        = some (['B'], 1, ['T', '|', 'x'], false) ∧
      (['B'] : Str) ≠ (⟨['A'], 0, ∅, {['T']}, ∅, ∅⟩ : MeshState).peer_id ∧
      ((['B'] : Str), 1) ∉ seenU ⟨['A'], 0, ∅, {['T']}, ∅, ∅⟩) ∧
    peer_receive ⟨['A'], 0, ∅, {['T']}, ∅, ∅⟩ 0
        (format_peer_line ['B'] 1 ['T', '|', 'x'] false) false
      = some (rotateSeen false
          { (⟨['A'], 0, ∅, {['T']}, ∅, ∅⟩ : MeshState) with seen0 := insert (['B'], 1) ∅ },
        { notified := notify_observers ⟨['A'], 0, ∅, {['T']}, ∅, ∅⟩ (some 0) ['B'] 1 ['T', '|', 'x'],
          sends := [] }) :=
  ⟨⟨by decide, by decide, by decide⟩,
    C3_direct_frames_amended.2.2 ⟨['A'], 0, ∅, {['T']}, ∅, ∅⟩ 0
      (format_peer_line ['B'] 1 ['T', '|', 'x'] false) false ['B'] 1 ['T', '|', 'x']
      (by decide) (by decide) (by decide)⟩

/-! ### Receive traces.  A step is `(peer, line, expired)`; a trace is a
sequence of `peer_receive` invocations on one server. -/

/-- The state after one `peer_receive` call (unchanged when the parse
raises). -/
def stepState (st : MeshState) (s : Nat × Str × Bool) : MeshState :=
  match peer_receive st s.1 s.2.1 s.2.2 with
  | Option.none => st
  | some r => r.1

/-- Run a trace of `peer_receive` calls, collecting each call's effects. -/
def recvRun (st : MeshState) : List (Nat × Str × Bool) → MeshState × List Effects
  | [] => (st, [])
  | s :: rest =>
    match peer_receive st s.1 s.2.1 s.2.2 with
    | Option.none => recvRun st rest
    | some r =>
      let t := recvRun r.1 rest
      (t.1, r.2 :: t.2)

/-- The server state just before step `i` of a trace. -/
def stateAt (st : MeshState) (steps : List (Nat × Str × Bool)) (i : Nat) : MeshState :=
  (recvRun st (steps.take i)).1

theorem recvRun_cons_fst (st : MeshState) (s : Nat × Str × Bool)
    (rest : List (Nat × Str × Bool)) :
    (recvRun st (s :: rest)).1 = (recvRun (stepState st s) rest).1 := by
  rw [recvRun, stepState]
  cases peer_receive st s.1 s.2.1 s.2.2 <;> rfl

theorem stateAt_zero (st : MeshState) (steps : List (Nat × Str × Bool)) :
    stateAt st steps 0 = st := rfl

theorem stateAt_cons (st : MeshState) (s : Nat × Str × Bool)
    (rest : List (Nat × Str × Bool)) (i : Nat) :
    stateAt st (s :: rest) (i + 1) = stateAt (stepState st s) rest i := by
  unfold stateAt
  rw [List.take_succ_cons, recvRun_cons_fst]

theorem mem_seenU_stepState_of_fresh (st : MeshState) (s : Nat × Str × Bool)
    (src : Str) (mid : Nat) (msg : Str) (b : Bool)
    (hp : parse_peer_line s.2.1 = some (src, mid, msg, b))
    (hsrc : src ≠ st.peer_id) (hnot : (src, mid) ∉ seenU st) :
    (src, mid) ∈ seenU (stepState st s) := by
  rw [stepState, peer_receive_fresh st s.1 s.2.1 s.2.2 src mid msg b hp hsrc hnot]
  unfold rotateSeen seenU
  cases s.2.2 <;> simp

theorem ite_one_le_one (b : Bool) : (if b = true then 1 else 0) ≤ 1 := by
  cases b <;> simp

theorem recvRun_silent (src : Str) (mid : Nat) :
    ∀ (steps : List (Nat × Str × Bool)) (st : MeshState),
    (∀ s ∈ steps, (parse_peer_line s.2.1).map (fun x => (x.1, x.2.1)) = some (src, mid)) →
    (∀ i < steps.length, (src, mid) ∈ seenU (stateAt st steps i) →
      (src, mid) ∈ seenU (stateAt st steps (i + 1))) →
    (src, mid) ∈ seenU st →
    (recvRun st steps).2.countP (fun eff => !eff.notified.isEmpty) = 0 ∧
    (recvRun st steps).2.countP (fun eff => !eff.sends.isEmpty) = 0 := by
  intro steps
  induction steps with
  | nil => intro st _ _ _; exact ⟨rfl, rfl⟩
  | cons s rest ih =>
    intro st hkey hkeep hmem
    obtain ⟨⟨src', mid', msg, b⟩, hp, hx⟩ :=
      Option.map_eq_some'.mp (hkey s (List.mem_cons_self s rest))
    have hx' : src' = src ∧ mid' = mid := by simpa using hx
    obtain ⟨h1, h2⟩ := hx'
    subst h1
    subst h2
    have hrec := peer_receive_seen st s.1 s.2.1 s.2.2 src' mid' msg b hp (Or.inr hmem)
    have hstep : stepState st s = rotateSeen s.2.2 st := by
      rw [stepState, hrec]
    have hmem' : (src', mid') ∈ seenU (stepState st s) := by
      have h0 := hkeep 0 (Nat.succ_pos _)
      rw [stateAt_zero, stateAt_cons, stateAt_zero] at h0
      exact h0 hmem
    have hkeep' : ∀ i < rest.length,
        (src', mid') ∈ seenU (stateAt (stepState st s) rest i) →
        (src', mid') ∈ seenU (stateAt (stepState st s) rest (i + 1)) := by
      intro i hi
      have := hkeep (i + 1) (Nat.succ_lt_succ hi)
      rwa [stateAt_cons, stateAt_cons] at this
    have hkey' : ∀ x ∈ rest, (parse_peer_line x.2.1).map (fun x => (x.1, x.2.1))
        = some (src', mid') := fun x hxm => hkey x (List.mem_cons_of_mem s hxm)
    have htail := ih (stepState st s) hkey' hkeep' hmem'
    rw [hstep] at htail
    rw [recvRun, hrec]
    dsimp only
    constructor
    · rw [List.countP_cons, htail.1]
      rfl
    · rw [List.countP_cons, htail.2]
      rfl

/-- C1: at-most-once delivery.  Along any trace of `peer_receive` calls
whose lines all carry the same `(source, message_id)` key, as long as no
seen-cache rotation discards that key between calls (once the key is in
a generation it is still in one at the next call), observers are
notified at most once and the line is forwarded to peers at most once. -/
theorem C1_at_most_once (st : MeshState) (steps : List (Nat × Str × Bool))
    (src : Str) (mid : Nat)
    (hkey : ∀ s ∈ steps, (parse_peer_line s.2.1).map (fun x => (x.1, x.2.1)) = some (src, mid))
    (hkeep : ∀ i < steps.length, (src, mid) ∈ seenU (stateAt st steps i) →
      (src, mid) ∈ seenU (stateAt st steps (i + 1))) :
    (recvRun st steps).2.countP (fun eff => !eff.notified.isEmpty) ≤ 1 ∧
    (recvRun st steps).2.countP (fun eff => !eff.sends.isEmpty) ≤ 1 := by
  induction steps generalizing st with
  | nil => exact ⟨Nat.zero_le _, Nat.zero_le _⟩
  | cons s rest ih =>
    obtain ⟨⟨src', mid', msg, b⟩, hp, hx⟩ :=
      Option.map_eq_some'.mp (hkey s (List.mem_cons_self s rest))
    have hx' : src' = src ∧ mid' = mid := by simpa using hx
    obtain ⟨h1, h2⟩ := hx'
    subst h1
    subst h2
    have hkeep' : ∀ i < rest.length,
        (src', mid') ∈ seenU (stateAt (stepState st s) rest i) →
        (src', mid') ∈ seenU (stateAt (stepState st s) rest (i + 1)) := by
      intro i hi
      have := hkeep (i + 1) (Nat.succ_lt_succ hi)
      rwa [stateAt_cons, stateAt_cons] at this
    have hkey' : ∀ x ∈ rest, (parse_peer_line x.2.1).map (fun x => (x.1, x.2.1))
        = some (src', mid') := fun x hxm => hkey x (List.mem_cons_of_mem s hxm)
    by_cases hsil : src' = st.peer_id ∨ (src', mid') ∈ seenU st
    · have hrec := peer_receive_seen st s.1 s.2.1 s.2.2 src' mid' msg b hp hsil
      have hstep : stepState st s = rotateSeen s.2.2 st := by
        rw [stepState, hrec]
      have htail := ih (stepState st s) hkey' hkeep'
      rw [hstep] at htail
      rw [recvRun, hrec]
      dsimp only
      constructor
      · rw [List.countP_cons]
        have h0 : (if (fun eff => !eff.notified.isEmpty) Effects.none = true then 1 else 0) = 0 := rfl
        rw [h0]
        simpa using htail.1
      · rw [List.countP_cons]
        have h0 : (if (fun eff => !eff.sends.isEmpty) Effects.none = true then 1 else 0) = 0 := rfl
        rw [h0]
        simpa using htail.2
    · push_neg at hsil
      have hrec := peer_receive_fresh st s.1 s.2.1 s.2.2 src' mid' msg b hp hsil.1 hsil.2
      have hmem' : (src', mid') ∈ seenU (stepState st s) :=
        mem_seenU_stepState_of_fresh st s src' mid' msg b hp hsil.1 hsil.2
      have htail := recvRun_silent src' mid' rest (stepState st s) hkey' hkeep' hmem'
      have hstep : stepState st s
          = rotateSeen s.2.2 { st with seen0 := insert (src', mid') st.seen0 } := by
        rw [stepState, hrec]
      rw [hstep] at htail
      rw [recvRun, hrec]
      dsimp only
      constructor
      · rw [List.countP_cons, htail.1, Nat.zero_add]
        exact ite_one_le_one _
      · rw [List.countP_cons, htail.2, Nat.zero_add]
        exact ite_one_le_one _

/-- Witness for C1: the same broadcast frame delivered twice in a row;
only the first delivery notifies and forwards. -/
theorem C1_at_most_once_witness :
    ((∀ s ∈ [((0 : Nat), format_peer_line ['B'] 1 ['T', '|', 'x'] true, false),
              ((1 : Nat), format_peer_line ['B'] 1 ['T', '|', 'x'] true, false)],
        (parse_peer_line s.2.1).map (fun x => (x.1, x.2.1)) = some (['B'], 1)) ∧
      (∀ i < ([((0 : Nat), format_peer_line ['B'] 1 ['T', '|', 'x'] true, false),
               ((1 : Nat), format_peer_line ['B'] 1 ['T', '|', 'x'] true, false)]).length,
        ((['B'] : Str), 1) ∈ seenU (stateAt ⟨['A'], 0, {2}, {['T']}, ∅, ∅⟩
            [((0 : Nat), format_peer_line ['B'] 1 ['T', '|', 'x'] true, false),
             ((1 : Nat), format_peer_line ['B'] 1 ['T', '|', 'x'] true, false)] i) →
        ((['B'] : Str), 1) ∈ seenU (stateAt ⟨['A'], 0, {2}, {['T']}, ∅, ∅⟩
            [((0 : Nat), format_peer_line ['B'] 1 ['T', '|', 'x'] true, false),
             ((1 : Nat), format_peer_line ['B'] 1 ['T', '|', 'x'] true, false)] (i + 1)))) ∧
    ((recvRun ⟨['A'], 0, {2}, {['T']}, ∅, ∅⟩
        [((0 : Nat), format_peer_line ['B'] 1 ['T', '|', 'x'] true, false),
         ((1 : Nat), format_peer_line ['B'] 1 ['T', '|', 'x'] true, false)]).2.countP
        (fun eff => !eff.notified.isEmpty) ≤ 1 ∧
      (recvRun ⟨['A'], 0, {2}, {['T']}, ∅, ∅⟩
        [((0 : Nat), format_peer_line ['B'] 1 ['T', '|', 'x'] true, false),
         ((1 : Nat), format_peer_line ['B'] 1 ['T', '|', 'x'] true, false)]).2.countP
        (fun eff => !eff.sends.isEmpty) ≤ 1) :=
  ⟨⟨by decide, by decide⟩,
    C1_at_most_once ⟨['A'], 0, {2}, {['T']}, ∅, ∅⟩
      [((0 : Nat), format_peer_line ['B'] 1 ['T', '|', 'x'] true, false),
       ((1 : Nat), format_peer_line ['B'] 1 ['T', '|', 'x'] true, false)]
      ['B'] 1 (by decide) (by decide)⟩

/-! ### Origination traces: `peer_broadcast` and `peer_unicast` share
the single per-server `message_id` counter. -/

inductive Orig where
  | bcast (payload : Str) (target : Option Str)
  | ucast (peer : Nat) (payload : Str) (target : Option Str)

def origStep (st : MeshState) : Orig → MeshState × Effects
  | .bcast payload target => peer_broadcast st payload target
  | .ucast peer payload target => peer_unicast st peer payload target

/-- Run a sequence of originations, collecting every line written to a
peer link, in order. -/
def origRun (st : MeshState) : List Orig → MeshState × List Str
  | [] => (st, [])
  | o :: rest =>
    let r := origStep st o
    let t := origRun r.1 rest
    (t.1, r.2.sends.map (fun sd => sd.2) ++ t.2)

theorem origStep_peer_id (st : MeshState) (o : Orig) : (origStep st o).1.peer_id = st.peer_id := by
  cases o <;> rfl

theorem origStep_message_id (st : MeshState) (o : Orig) :
    (origStep st o).1.message_id = st.message_id + 1 := by
  cases o <;> rfl

/-- C10: every origination — broadcast or unicast — increments the one
shared `message_id` counter by exactly one before sending, so the
frames a server originates carry consecutive, strictly increasing
message ids: frame `k` of the trace parses back to
`(peer_id, message_id₀ + k + 1)`.  In particular no two originated
frames share a `(peer_id, message_id)` pair, and the ids seen in
broadcasts alone skip the values consumed by interleaved unicasts. -/
theorem C10_message_ids (st : MeshState) (os : List Orig)
    (hpid : '|' ∉ st.peer_id) (hbang : st.peer_id.head? ≠ some '!') :
    (origRun st os).1.message_id = st.message_id + os.length ∧
    (origRun st os).2.map (fun l => (parse_peer_line l).map (fun x => (x.1, x.2.1)))
      = (List.range' (st.message_id + 1) os.length).map (fun m => some (st.peer_id, m)) := by
  induction os generalizing st with
  | nil => exact ⟨rfl, rfl⟩
  | cons o rest ih =>
    have hpid' : '|' ∉ (origStep st o).1.peer_id := by rw [origStep_peer_id]; exact hpid
    have hbang' : (origStep st o).1.peer_id.head? ≠ some '!' := by
      rw [origStep_peer_id]; exact hbang
    have htail := ih (origStep st o).1 hpid' hbang'
    rw [origStep_peer_id, origStep_message_id] at htail
    have hmsg : (origRun st (o :: rest)).1.message_id = st.message_id + (o :: rest).length := by
      show (origRun (origStep st o).1 rest).1.message_id = _
      rw [htail.1]
      simp
      omega
    refine ⟨hmsg, ?_⟩
    show ((origStep st o).2.sends.map (fun sd => sd.2)
        ++ (origRun (origStep st o).1 rest).2).map _ = _
    rw [List.map_append, htail.2]
    have hrange : List.range' (st.message_id + 1) (o :: rest).length
        = (st.message_id + 1) :: List.range' (st.message_id + 1 + 1) rest.length := rfl
    rw [hrange, List.map_cons]
    cases o with
    | bcast payload target =>
      cases target with
      | none =>
        have hparse := C9_wire_roundtrip st.peer_id (st.message_id + 1) payload true
          hpid (fun _ => hbang)
        have hsends : (origStep st (.bcast payload Option.none)).2.sends.map (fun sd => sd.2)
            = [format_peer_line st.peer_id (st.message_id + 1) payload true] := rfl
        rw [hsends, List.map_cons, List.map_nil, hparse]
        rfl
      | some t =>
        have hparse := C9_wire_roundtrip st.peer_id (st.message_id + 1) (t ++ '|' :: payload)
          true hpid (fun _ => hbang)
        have hsends : (origStep st (.bcast payload (some t))).2.sends.map (fun sd => sd.2)
            = [format_peer_line st.peer_id (st.message_id + 1) (t ++ '|' :: payload) true] := rfl
        rw [hsends, List.map_cons, List.map_nil, hparse]
        rfl
    | ucast peer payload target =>
      cases target with
      | none =>
        have hparse := C9_wire_roundtrip st.peer_id (st.message_id + 1) payload false
          hpid (by intro h; cases h)
        have hsends : (origStep st (.ucast peer payload Option.none)).2.sends.map (fun sd => sd.2)
            = [format_peer_line st.peer_id (st.message_id + 1) payload false] := rfl
        rw [hsends, List.map_cons, List.map_nil, hparse]
        rfl
      | some t =>
        have hparse := C9_wire_roundtrip st.peer_id (st.message_id + 1) (t ++ '|' :: payload)
          false hpid (by intro h; cases h)
        have hsends : (origStep st (.ucast peer payload (some t))).2.sends.map (fun sd => sd.2)
            = [format_peer_line st.peer_id (st.message_id + 1) (t ++ '|' :: payload) false] := rfl
        rw [hsends, List.map_cons, List.map_nil, hparse]
        rfl

/-- Witness for C10: three originations with a unicast interleaved. -/
theorem C10_message_ids_witness :
    ('|' ∉ (⟨['A'], 0, ∅, ∅, ∅, ∅⟩ : MeshState).peer_id ∧
      (⟨['A'], 0, ∅, ∅, ∅, ∅⟩ : MeshState).peer_id.head? ≠ some '!') ∧
    ((origRun ⟨['A'], 0, ∅, ∅, ∅, ∅⟩
        [Orig.bcast ['x'] Option.none, Orig.ucast 0 ['y'] Option.none,
         Orig.bcast ['z'] (some ['T'])]).1.message_id
      = (⟨['A'], 0, ∅, ∅, ∅, ∅⟩ : MeshState).message_id + 3 ∧
    (origRun ⟨['A'], 0, ∅, ∅, ∅, ∅⟩
        [Orig.bcast ['x'] Option.none, Orig.ucast 0 ['y'] Option.none,
         Orig.bcast ['z'] (some ['T'])]).2.map
        (fun l => (parse_peer_line l).map (fun x => (x.1, x.2.1)))
      = (List.range' ((⟨['A'], 0, ∅, ∅, ∅, ∅⟩ : MeshState).message_id + 1) 3).map
          (fun m => some ((⟨['A'], 0, ∅, ∅, ∅, ∅⟩ : MeshState).peer_id, m))) :=
  ⟨⟨by decide, by decide⟩,
    C10_message_ids ⟨['A'], 0, ∅, ∅, ∅, ∅⟩
      [Orig.bcast ['x'] Option.none, Orig.ucast 0 ['y'] Option.none,
       Orig.bcast ['z'] (some ['T'])] (by decide) (by decide)⟩

/-! ### Scatter-gather (`talker/distributed.py`, `ScatterGatherMixin`)

The outstanding-request table is a two-generation association list
`request_id → (responses, callback)`; callbacks are identified by a
natural and their invocations recorded as `(callback, responses,
complete)` events.  The reachability set consulted on completion is a
parameter (it lives in the `TopologyObserver`). -/

structure SGEntry where
  responses : List (Str × Str)
  cb : Nat
deriving DecidableEq

structure SGState where
  request_id : Nat
  out0 : List (Nat × SGEntry)
  out1 : List (Nat × SGEntry)
deriving DecidableEq

abbrev CbEvent := Nat × List (Str × Str) × Bool

def lookupA (l : List (Nat × SGEntry)) (k : Nat) : Option SGEntry :=
  (l.find? (fun e => e.1 == k)).map (fun e => e.2)

/-- Python `d[k] = v` on an existing key: replace in place. -/
def setA (l : List (Nat × SGEntry)) (k : Nat) (v : SGEntry) : List (Nat × SGEntry) :=
  l.map (fun e => if e.1 = k then (k, v) else e)

/-- Python `del d[k]`. -/
def delA (l : List (Nat × SGEntry)) (k : Nat) : List (Nat × SGEntry) :=
  l.filter (fun e => !(e.1 == k))

/-- Python `d[k] = v`: overwrite an existing binding in place, else
append in insertion order. -/
def insA (l : List (Nat × SGEntry)) (k : Nat) (v : SGEntry) : List (Nat × SGEntry) :=
  if l.any (fun e => e.1 == k) then setA l k v else l ++ [(k, v)]

/-- `set(responses)`: the set of responder peer ids. -/
def respKeys (rs : List (Str × Str)) : Finset Str := (rs.map (fun r => r.1)).toFinset

theorem lookupA_cons_eq (e : Nat × SGEntry) (rest : List (Nat × SGEntry)) (k : Nat)
    (h : e.1 = k) : lookupA (e :: rest) k = some e.2 := by
  simp [lookupA, List.find?_cons, h]

theorem lookupA_cons_ne (e : Nat × SGEntry) (rest : List (Nat × SGEntry)) (k : Nat)
    (h : e.1 ≠ k) : lookupA (e :: rest) k = lookupA rest k := by
  simp [lookupA, List.find?_cons, beq_eq_false_iff_ne.mpr h]

theorem lookupA_append_self (l : List (Nat × SGEntry)) (k : Nat) (v : SGEntry)
    (hall : ∀ e ∈ l, e.1 ≠ k) : lookupA (l ++ [(k, v)]) k = some v := by
  induction l with
  | nil => exact lookupA_cons_eq (k, v) [] k rfl
  | cons e rest ih =>
    rw [List.cons_append, lookupA_cons_ne _ _ _ (hall e (List.mem_cons_self e rest))]
    exact ih (fun x hx => hall x (List.mem_cons_of_mem e hx))

theorem lookupA_setA_self (l : List (Nat × SGEntry)) (k : Nat) (v : SGEntry)
    (hex : ∃ e ∈ l, e.1 = k) : lookupA (setA l k v) k = some v := by
  induction l with
  | nil => simp at hex
  | cons e rest ih =>
    by_cases he : e.1 = k
    · rw [setA, List.map_cons, if_pos he]
      exact lookupA_cons_eq (k, v) _ k rfl
    · obtain ⟨e0, he0, hk0⟩ := hex
      have h' : ∃ x ∈ rest, x.1 = k := by
        rcases List.mem_cons.mp he0 with rfl | hmem
        · exact absurd hk0 he
        · exact ⟨e0, hmem, hk0⟩
      rw [setA, List.map_cons, if_neg he, lookupA_cons_ne _ _ _ he]
      have := ih h'
      rw [setA] at this
      exact this

theorem lookupA_insA_self (l : List (Nat × SGEntry)) (k : Nat) (v : SGEntry) :
    lookupA (insA l k v) k = some v := by
  rw [insA]
  split
  · rename_i hany
    rw [List.any_eq_true] at hany
    obtain ⟨e0, he0, hk0⟩ := hany
    exact lookupA_setA_self l k v ⟨e0, he0, by simpa using hk0⟩
  · rename_i hany
    refine lookupA_append_self l k v ?_
    simp only [List.any_eq_true, not_exists] at hany
    intro e he hk
    exact hany e ⟨he, by simp [hk]⟩

/-- `ScatterGatherMixin.rollover`: when `CALLBACK_CACHE_EXPIRY` has
passed, invoke every previous-generation callback with
`complete=False` and rotate the two generations. -/
def rollover (sg : SGState) (expired : Bool) : SGState × List CbEvent :=
  if expired then
    (⟨sg.request_id, [], sg.out0⟩, sg.out1.map (fun e => (e.2.cb, e.2.responses, false)))
  else (sg, [])

/-- `ScatterGatherMixin.tick`: `super().tick()` is a no-op; then
`rollover`. -/
def tick (sg : SGState) (expired : Bool) : SGState × List CbEvent :=
  rollover sg expired

/-- Modelled from the spec: `PeerObserver.broadcast(method, payload)` —
this two-argument observer helper is missing from `src` (the
`PeerObserver` in `src/talker/mesh.py` has the older one-argument
`broadcast`, yet `ScatterGatherMixin` and the mixin observers call the
two-argument form).  Per spec §4.2 it "frames as `method|payload` under
`target`", i.e. delegates to `peer_broadcast` with the observer's name
as target. -/
def observer_broadcast (st : MeshState) (name method payload : Str) : MeshState × Effects :=
  peer_broadcast st (method ++ '|' :: payload) (some name)

/-- `ScatterGatherMixin.scatter_request(method, payload, callback)`:
allocate the next request id, store `(request_id → ({}, callback))` in
the current generation, broadcast `method|request_id|payload` under the
owning observer's name. -/
def scatter_request (st : MeshState) (name : Str) (sg : SGState) (method payload : Str)
    (cb : Nat) : MeshState × SGState × Effects :=
  let rid := sg.request_id + 1
  let sg' : SGState := ⟨rid, insA sg.out0 rid ⟨[], cb⟩, sg.out1⟩
  let r := observer_broadcast st name method (natToDec rid ++ '|' :: payload)
  (r.1, sg', r.2)

/-- The generation walk in the `try` body of
`ScatterGatherMixin.recv_gather`: look the request id up in the current
then the previous generation; drop duplicates; record the response;
fire the callback and delete the entry exactly when the responder set
equals the reachable set. -/
def gatherCore (reach : Finset Str) (sg : SGState) (source result : Str) (rid : Nat) :
    SGState × List CbEvent :=
  match lookupA sg.out0 rid with
  | some entry =>
    if source ∈ respKeys entry.responses then (sg, [])
    else
      let rs := entry.responses ++ [(source, result)]
      if respKeys rs = reach then
        (⟨sg.request_id, delA sg.out0 rid, sg.out1⟩, [(entry.cb, rs, true)])
      else
        (⟨sg.request_id, setA sg.out0 rid ⟨rs, entry.cb⟩, sg.out1⟩, [])
  | Option.none =>
    match lookupA sg.out1 rid with
    | some entry =>
      if source ∈ respKeys entry.responses then (sg, [])
      else
        let rs := entry.responses ++ [(source, result)]
        if respKeys rs = reach then
          (⟨sg.request_id, sg.out0, delA sg.out1 rid⟩, [(entry.cb, rs, true)])
        else
          (⟨sg.request_id, sg.out0, setA sg.out1 rid ⟨rs, entry.cb⟩⟩, [])
    | Option.none => (sg, [])

/-- `ScatterGatherMixin.recv_gather(peer, source, id, payload)`: split
`destination|response_id|result`; ignore frames addressed elsewhere
(before the `try`, so without rotating); otherwise run the generation
walk and, in the `finally`, `rollover`. -/
def recv_gather (peer_id : Str) (reach : Finset Str) (sg : SGState) (source payload : Str)
    (expired : Bool) : Option (SGState × List CbEvent) := do
  let p1 ← splitFirst '|' payload
  let p2 ← splitFirst '|' p1.2
  if p1.1 ≠ peer_id then
    pure (sg, [])
  else do
    let rid ← decToNat p2.1
    let core := gatherCore reach sg source p2.2 rid
    let r := rollover core.1 expired
    pure (r.1, core.2 ++ r.2)

/-- C4: `scatter_request(method, payload, callback)` allocates the next
request id (one more than before), stores `(request_id → ({},
callback))` in the current generation of the outstanding table (the
previous generation untouched), and broadcasts the frame
`method|request_id|payload` under the owning observer's name. -/
theorem C4_scatter_request (st : MeshState) (name : Str) (sg : SGState)
    (method payload : Str) (cb : Nat) :
    (scatter_request st name sg method payload cb).2.1.request_id = sg.request_id + 1 ∧
    lookupA (scatter_request st name sg method payload cb).2.1.out0 (sg.request_id + 1)
      = some ⟨[], cb⟩ ∧
    (scatter_request st name sg method payload cb).2.1.out1 = sg.out1 ∧
    (scatter_request st name sg method payload cb).2.2.sends
      = [(st.peers, format_peer_line st.peer_id (st.message_id + 1)
          (name ++ '|' :: method ++ '|' :: natToDec (sg.request_id + 1) ++ '|' :: payload)
          true)] ∧
    (scatter_request st name sg method payload cb).1.message_id = st.message_id + 1 := by
  refine ⟨rfl, lookupA_insA_self sg.out0 (sg.request_id + 1) ⟨[], cb⟩, rfl, ?_, rfl⟩
  simp [scatter_request, observer_broadcast, peer_broadcast]

theorem rollover_not_expired (sg : SGState) : rollover sg false = (sg, []) := rfl

/-- C5: `recv_gather` on a `GATHER` payload `destination|rid|result`
(run inside one expiry window, so the `finally` rotation is a no-op):
frames addressed elsewhere are ignored outright; when the request id is
found in a generation and the source already responded, the frame is
dropped with the table unchanged; otherwise the response is recorded,
and the callback fires (complete) with the entry deleted exactly when
the responder set equals the reachable set. -/
theorem C5_recv_gather (pid : Str) (reach : Finset Str) (sg : SGState)
    (source dest res : Str) (rid : Nat) (hdest : '|' ∉ dest) :
    (dest ≠ pid →
      recv_gather pid reach sg source (dest ++ '|' :: natToDec rid ++ '|' :: res) false
        = some (sg, [])) ∧
    (∀ entry, dest = pid → lookupA sg.out0 rid = some entry →
      source ∈ respKeys entry.responses →
      recv_gather pid reach sg source (dest ++ '|' :: natToDec rid ++ '|' :: res) false
        = some (sg, [])) ∧
    (∀ entry, dest = pid → lookupA sg.out0 rid = some entry →
      source ∉ respKeys entry.responses →
      recv_gather pid reach sg source (dest ++ '|' :: natToDec rid ++ '|' :: res) false
        = some (if respKeys (entry.responses ++ [(source, res)]) = reach then
            (⟨sg.request_id, delA sg.out0 rid, sg.out1⟩,
              [(entry.cb, entry.responses ++ [(source, res)], true)])
          else
            (⟨sg.request_id, setA sg.out0 rid ⟨entry.responses ++ [(source, res)], entry.cb⟩,
              sg.out1⟩, []))) ∧
    (∀ entry, dest = pid → lookupA sg.out0 rid = Option.none →
      lookupA sg.out1 rid = some entry →
      source ∉ respKeys entry.responses →
      recv_gather pid reach sg source (dest ++ '|' :: natToDec rid ++ '|' :: res) false
        = some (if respKeys (entry.responses ++ [(source, res)]) = reach then
            (⟨sg.request_id, sg.out0, delA sg.out1 rid⟩,
              [(entry.cb, entry.responses ++ [(source, res)], true)])
          else
            (⟨sg.request_id, sg.out0, setA sg.out1 rid ⟨entry.responses ++ [(source, res)],
              entry.cb⟩⟩, []))) ∧
    (∀ entry, dest = pid → lookupA sg.out0 rid = Option.none →
      lookupA sg.out1 rid = some entry →
      source ∈ respKeys entry.responses →
      recv_gather pid reach sg source (dest ++ '|' :: natToDec rid ++ '|' :: res) false
        = some (sg, [])) ∧
    (dest = pid → lookupA sg.out0 rid = Option.none → lookupA sg.out1 rid = Option.none →
      recv_gather pid reach sg source (dest ++ '|' :: natToDec rid ++ '|' :: res) false
        = some (sg, [])) := by
  have h1 := splitFirst_append '|' dest (natToDec rid ++ '|' :: res) hdest
  have h2 := splitFirst_append '|' (natToDec rid) res (natToDec_ne_pipe rid)
  refine ⟨?_, ?_, ?_, ?_, ?_, ?_⟩
  · intro hne
    simp [recv_gather, h1, h2, hne]
  · intro entry heq h0 hdup
    subst heq
    simp [recv_gather, h1, h2, decToNat_natToDec, gatherCore, h0, hdup,
      rollover_not_expired]
  · intro entry heq h0 hdup
    subst heq
    by_cases hc : respKeys (entry.responses ++ [(source, res)]) = reach <;>
      simp [recv_gather, h1, h2, decToNat_natToDec, gatherCore, h0, hdup, hc,
        rollover_not_expired]
  · intro entry heq h0 h1' hdup
    subst heq
    by_cases hc : respKeys (entry.responses ++ [(source, res)]) = reach <;>
      simp [recv_gather, h1, h2, decToNat_natToDec, gatherCore, h0, h1', hdup, hc,
        rollover_not_expired]
  · intro entry heq h0 h1' hdup
    subst heq
    simp [recv_gather, h1, h2, decToNat_natToDec, gatherCore, h0, h1', hdup,
      rollover_not_expired]
  · intro heq h0 h1'
    subst heq
    simp [recv_gather, h1, h2, decToNat_natToDec, gatherCore, h0, h1',
      rollover_not_expired]

/-- Witness for C5: a mis-addressed frame and a completing response on a
one-request table with a single reachable responder. -/
theorem C5_recv_gather_witness :
    (('|' ∉ (['X'] : Str)) ∧ (['X'] : Str) ≠ ['A']) ∧
    recv_gather ['A'] {['B']} ⟨1, [(1, ⟨[], 7⟩)], []⟩ ['B']
        (['X'] ++ '|' :: natToDec 1 ++ '|' :: ['r']) false
      = some (⟨1, [(1, ⟨[], 7⟩)], []⟩, []) :=
  ⟨⟨by decide, by decide⟩,
    (C5_recv_gather ['A'] {['B']} ⟨1, [(1, ⟨[], 7⟩)], []⟩ ['B'] ['X'] ['r'] 1
      (by decide)).1 (by decide)⟩

/-- Modelled from the spec: the mesh server's `tick()` — `talker/base.py`'s
`Server.tick` is an empty stub and `src/talker/mesh.py`'s `Server` does
not override it, yet the spec requires "invoked by the reactor roughly
once per second; rotates caches and gives observers a chance to tick".
The seen cache rotates exactly as in `peer_receive`'s `finally`; each
observer's tick is the `ScatterGatherMixin.tick` from `src`. -/
def server_tick (st : MeshState) (obs : List SGState) (cbExpired : Bool) :
    MeshState × List SGState × List CbEvent :=
  let st' := { st with seen0 := ∅, seen1 := st.seen0 }
  let ticked := obs.map (fun o => tick o cbExpired)
  (st', ticked.map (fun r => r.1), (ticked.map (fun r => r.2)).flatten)

/-- C2: `tick` rotates the seen cache (the current generation becomes
previous, the old previous is discarded) and the scatter-gather
outstanding tables of every registered observer, firing `complete=false`
timeout callbacks for every entry of each observer's previous
generation — every observer gets its tick. -/
theorem C2_tick_rotates (st : MeshState) (obs : List SGState) :
    (server_tick st obs true).1 = { st with seen0 := ∅, seen1 := st.seen0 } ∧
    (server_tick st obs true).2.1 = obs.map (fun o => ⟨o.request_id, [], o.out0⟩) ∧
    (server_tick st obs true).2.2
      = (obs.map (fun o => o.out1.map (fun e => (e.2.cb, e.2.responses, false)))).flatten := by
  refine ⟨rfl, ?_, ?_⟩ <;> simp [server_tick, tick, rollover, Function.comp_def]

/-! ### Topology (`talker/mesh.py`, class `TopologyObserver`)

`topology` is the Python dict `peer_id → (version, neighbour_set)` as an
association list; `peer_ids` is the dict `peer link → peer_id`.  The
observer state is coupled with the server's shared `message_id` counter
because `broadcast_new_neighbours` feeds back into the observer through
`peer_broadcast`'s local fast-path. -/

abbrev Topo := List (Str × Nat × Finset Str)

def lookupT (t : Topo) (k : Str) : Option (Nat × Finset Str) :=
  (t.find? (fun e => e.1 == k)).map (fun e => e.2)

/-- Python `topology[k] = v`: overwrite in place or append. -/
def upsertT (t : Topo) (k : Str) (v : Nat × Finset Str) : Topo :=
  if t.any (fun e => e.1 == k) then t.map (fun e => if e.1 = k then (k, v) else e)
  else t ++ [(k, v)]

structure TopoState where
  peer_id : Str
  message_id : Nat
  peer_ids : List (Nat × Str)
  topology : Topo
deriving DecidableEq

/-- `topology[node][1]` when present, else nothing to add. -/
def nbrsOf (t : Topo) (x : Str) : Finset Str :=
  match lookupT t x with
  | some v => v.2
  | Option.none => ∅

/-- The worklist loop of `calculate_reachable_peers`: grow `reachable`
by the neighbour sets of the newly added nodes until nothing is new.
The fuel argument only bounds the iteration count. -/
def bfsLoop (t : Topo) : Nat → Finset Str → Finset Str → Finset Str
  | 0, reach, _ => reach
  | fuel + 1, reach, new =>
    if new = ∅ then reach
    else bfsLoop t fuel (reach ∪ new) ((new.biUnion (nbrsOf t)) \ (reach ∪ new))

/-- Every node the loop can ever touch. -/
def topoUniverse (t : Topo) (root : Str) : Finset Str :=
  insert root ((t.map (fun e => e.1)).toFinset ∪ t.foldr (fun e acc => e.2.2 ∪ acc) ∅)

/-- The `reachable` set computed by `calculate_reachable_peers`. -/
def reachSet (t : Topo) (root : Str) : Finset Str :=
  bfsLoop t ((topoUniverse t root).card + 1) ∅ {root}

/-- `TopologyObserver.calculate_reachable_peers`: compute the reachable
set from `self.peer_id`, then delete every topology node outside it. -/
def calculate_reachable_peers (st : TopoState) : TopoState :=
  { st with topology :=
      st.topology.filter (fun e => decide (e.1 ∈ reachSet st.topology st.peer_id)) }

/-- `TopologyObserver.reachable()`: `set(self.topology)`. -/
def reachable (st : TopoState) : Finset Str := (st.topology.map (fun e => e.1)).toFinset

/-- Declarative BFS closure: what `source` can reach over the stored
neighbour sets. -/
inductive Reaches (t : Topo) (root : Str) : Str → Prop where
  | refl : Reaches t root root
  | step {x y : Str} {v : Nat × Finset Str} :
      Reaches t root x → lookupT t x = some v → y ∈ v.2 → Reaches t root y

theorem lookupT_some_mem {t : Topo} {k : Str} {v : Nat × Finset Str}
    (h : lookupT t k = some v) : (k, v) ∈ t := by
  unfold lookupT at h
  obtain ⟨e, hfind, hev⟩ := Option.map_eq_some'.mp h
  have hmem := List.mem_of_find?_eq_some hfind
  have hkey : e.1 = k := by
    have := List.find?_some hfind
    simpa using this
  have : e = (k, v) := by
    rw [Prod.ext_iff]
    exact ⟨hkey, hev⟩
  rwa [this] at hmem

theorem mem_foldr_union {t : Topo} {e : Str × Nat × Finset Str} (he : e ∈ t) :
    e.2.2 ⊆ t.foldr (fun e acc => e.2.2 ∪ acc) ∅ := by
  induction t with
  | nil => cases he
  | cons a rest ih =>
    rcases List.mem_cons.mp he with rfl | hm
    · exact Finset.subset_union_left
    · exact (ih hm).trans Finset.subset_union_right

theorem nbrsOf_subset_universe (t : Topo) (root x : Str) :
    nbrsOf t x ⊆ topoUniverse t root := by
  unfold nbrsOf
  cases hl : lookupT t x with
  | none => simp
  | some v =>
    have hmem := lookupT_some_mem hl
    unfold topoUniverse
    intro y hy
    apply Finset.mem_insert_of_mem
    apply Finset.mem_union_right
    exact mem_foldr_union hmem hy

theorem bfsLoop_sound (t : Topo) (root : Str) : ∀ (n : Nat) (reach new : Finset Str),
    (∀ z ∈ reach, Reaches t root z) → (∀ z ∈ new, Reaches t root z) →
    ∀ y ∈ bfsLoop t n reach new, Reaches t root y := by
  intro n
  induction n with
  | zero => intro reach new hr _ y hy; exact hr y hy
  | succ m ih =>
    intro reach new hr hn y hy
    rw [bfsLoop] at hy
    split at hy
    · exact hr y hy
    · refine ih _ _ ?_ ?_ y hy
      · intro z hz
        rcases Finset.mem_union.mp hz with h | h
        exacts [hr z h, hn z h]
      · intro z hz
        have hz' := (Finset.mem_sdiff.mp hz).1
        obtain ⟨x, hx, hzx⟩ := Finset.mem_biUnion.mp hz'
        unfold nbrsOf at hzx
        cases hl : lookupT t x with
        | none => rw [hl] at hzx; simp at hzx
        | some v =>
          rw [hl] at hzx
          exact Reaches.step (hn x hx) hl hzx

theorem bfsLoop_closed (t : Topo) (root : Str) :
    ∀ (n : Nat) (reach new : Finset Str),
    Disjoint new reach → reach ⊆ topoUniverse t root → new ⊆ topoUniverse t root →
    (∀ x ∈ reach, nbrsOf t x ⊆ reach ∪ new) →
    (topoUniverse t root \ reach).card < n →
    reach ∪ new ⊆ bfsLoop t n reach new ∧
    (∀ x ∈ bfsLoop t n reach new, nbrsOf t x ⊆ bfsLoop t n reach new) := by
  intro n
  induction n with
  | zero =>
    intro reach new _ _ _ _ hcard
    exact absurd hcard (Nat.not_lt_zero _)
  | succ m ih =>
    intro reach new hdisj hrU hnU hclosed hcard
    rw [bfsLoop]
    split
    · rename_i hnew
      subst hnew
      refine ⟨by simp, ?_⟩
      intro x hx
      have := hclosed x hx
      rwa [Finset.union_empty] at this
    · rename_i hnew
      have hsub : ∀ x ∈ new, nbrsOf t x ⊆ (reach ∪ new) ∪ ((new.biUnion (nbrsOf t)) \ (reach ∪ new)) := by
        intro x hx y hy
        by_cases hmem : y ∈ reach ∪ new
        · exact Finset.mem_union_left _ hmem
        · refine Finset.mem_union_right _ (Finset.mem_sdiff.mpr ⟨?_, hmem⟩)
          exact Finset.mem_biUnion.mpr ⟨x, hx, hy⟩
      have hcall := ih (reach ∪ new) ((new.biUnion (nbrsOf t)) \ (reach ∪ new))
        Finset.sdiff_disjoint
        (Finset.union_subset hrU hnU)
        (Finset.sdiff_subset.trans (Finset.biUnion_subset.mpr
          (fun x _ => nbrsOf_subset_universe t root x)))
        ?_ ?_
      · exact ⟨Finset.subset_union_left.trans hcall.1, hcall.2⟩
      · intro x hx
        rcases Finset.mem_union.mp hx with h | h
        · exact (hclosed x h).trans Finset.subset_union_left
        · exact hsub x h
      · obtain ⟨a, ha⟩ := Finset.nonempty_iff_ne_empty.mpr hnew
        have haU : a ∈ topoUniverse t root := hnU ha
        have hanr : a ∉ reach := Finset.disjoint_left.mp hdisj ha
        have hstrict : (topoUniverse t root \ (reach ∪ new)).card
            < (topoUniverse t root \ reach).card := by
          apply Finset.card_lt_card
          constructor
          · exact Finset.sdiff_subset_sdiff le_rfl Finset.subset_union_left
          · intro hle
            have : a ∈ topoUniverse t root \ (reach ∪ new) :=
              hle (Finset.mem_sdiff.mpr ⟨haU, hanr⟩)
            exact (Finset.mem_sdiff.mp this).2 (Finset.mem_union_right _ ha)
        omega

theorem reachSet_closed (t : Topo) (root : Str) :
    root ∈ reachSet t root ∧ ∀ x ∈ reachSet t root, nbrsOf t x ⊆ reachSet t root := by
  have hroot : ({root} : Finset Str) ⊆ topoUniverse t root := by
    intro y hy
    rw [Finset.mem_singleton.mp hy]
    exact Finset.mem_insert_self root _
  have h := bfsLoop_closed t root ((topoUniverse t root).card + 1) ∅ {root}
    (Finset.disjoint_empty_right _) (Finset.empty_subset _) hroot
    (by intro x hx; cases Finset.not_mem_empty x hx)
    (by rw [Finset.sdiff_empty]; omega)
  refine ⟨?_, h.2⟩
  apply h.1
  simp

theorem mem_reachSet_iff (t : Topo) (root y : Str) :
    y ∈ reachSet t root ↔ Reaches t root y := by
  constructor
  · intro hy
    refine bfsLoop_sound t root _ ∅ {root}
      (fun z hz => absurd hz (Finset.not_mem_empty z)) ?_ y hy
    intro z hz
    rw [Finset.mem_singleton.mp hz]
    exact Reaches.refl
  · intro hr
    induction hr with
    | refl => exact (reachSet_closed t root).1
    | step hx hl hy ih =>
      refine (reachSet_closed t root).2 _ ih ?_
      unfold nbrsOf
      rw [hl]
      exact hy

/-- C7: after any call to `calculate_reachable_peers`, the surviving
topology entries are exactly those whose key lies in the BFS closure
from the local `peer_id` over the stored neighbour sets (all others are
deleted), and `reachable()` returns exactly the surviving keys. -/
theorem C7_reachability_pruning (st : TopoState) :
    (∀ e ∈ (calculate_reachable_peers st).topology,
      e ∈ st.topology ∧ Reaches st.topology st.peer_id e.1) ∧
    (∀ e ∈ st.topology, Reaches st.topology st.peer_id e.1 →
      e ∈ (calculate_reachable_peers st).topology) ∧
    (∀ k, k ∈ reachable (calculate_reachable_peers st) ↔
      ((∃ v, (k, v) ∈ st.topology) ∧ Reaches st.topology st.peer_id k)) := by
  refine ⟨?_, ?_, ?_⟩
  · intro e he
    rw [calculate_reachable_peers] at he
    have hmem := List.mem_of_mem_filter he
    have hpred := List.of_mem_filter he
    rw [decide_eq_true_eq] at hpred
    exact ⟨hmem, (mem_reachSet_iff _ _ _).mp hpred⟩
  · intro e he hr
    rw [calculate_reachable_peers]
    apply List.mem_filter.mpr
    exact ⟨he, by rw [decide_eq_true_eq]; exact (mem_reachSet_iff _ _ _).mpr hr⟩
  · intro k
    constructor
    · intro hk
      rw [reachable] at hk
      obtain ⟨e, he, hek⟩ := List.mem_map.mp (List.mem_toFinset.mp hk)
      have h1 := List.mem_of_mem_filter he
      have h2 := List.of_mem_filter he
      rw [decide_eq_true_eq] at h2
      subst hek
      refine ⟨⟨e.2, ?_⟩, (mem_reachSet_iff _ _ _).mp h2⟩
      simpa using h1
    · intro ⟨⟨v, hv⟩, hr⟩
      rw [reachable]
      apply List.mem_toFinset.mpr
      apply List.mem_map.mpr
      refine ⟨(k, v), ?_, rfl⟩
      apply List.mem_filter.mpr
      exact ⟨hv, by rw [decide_eq_true_eq]; exact (mem_reachSet_iff _ _ _).mpr hr⟩

/-! ### Topology events.

`broadcast_new_neighbours` sends `i-see|<';'-joined direct ids>` via
`peer_broadcast`, whose local fast-path immediately hands the frame back
to this very observer (`process_i_see` with `source = self.peer_id`).
The state transition below therefore couples the observer with the
server's `message_id` counter; the wire emission itself is elided — a
copy of the frame coming back from a peer is dropped by `peer_receive`'s
own-source check (C8). -/

def splitSemiAux : Str → Str → List Str
  | [], acc => [acc.reverse]
  | c :: cs, acc =>
    if c = ';' then acc.reverse :: splitSemiAux cs [] else splitSemiAux cs (c :: acc)

/-- Python `payload.split(';')` (full split). -/
def splitSemi (s : Str) : List Str := splitSemiAux s []

/-- Python `';'.join(vals)`. -/
def joinSemi : List Str → Str
  | [] => []
  | [v] => v
  | v :: vs => v ++ ';' :: joinSemi vs

/-- The neighbour set decoded by `process_i_see`: empty payload means no
neighbours, otherwise `set(payload.split(';'))`. -/
def parseNbrs (payload : Str) : Finset Str :=
  if payload = [] then ∅ else (splitSemi payload).toFinset

theorem splitSemiAux_no_semi (v acc : Str) (h : ';' ∉ v) :
    splitSemiAux v acc = [acc.reverse ++ v] := by
  induction v generalizing acc with
  | nil => simp [splitSemiAux]
  | cons c cs ih =>
    have hc : c ≠ ';' := fun hc => h (by simp [hc])
    have hcs : ';' ∉ cs := fun hm => h (List.mem_cons_of_mem _ hm)
    rw [splitSemiAux, if_neg hc, ih (c :: acc) hcs]
    simp

theorem splitSemiAux_append (v rest acc : Str) (h : ';' ∉ v) :
    splitSemiAux (v ++ ';' :: rest) acc = (acc.reverse ++ v) :: splitSemiAux rest [] := by
  induction v generalizing acc with
  | nil => simp [splitSemiAux]
  | cons c cs ih =>
    have hc : c ≠ ';' := fun hc => h (by simp [hc])
    have hcs : ';' ∉ cs := fun hm => h (List.mem_cons_of_mem _ hm)
    rw [List.cons_append, splitSemiAux, if_neg hc, ih (c :: acc) hcs]
    simp

theorem splitSemi_joinSemi (V : List Str) (hne : V ≠ [])
    (hcl : ∀ v ∈ V, ';' ∉ v) : splitSemi (joinSemi V) = V := by
  induction V with
  | nil => exact absurd rfl hne
  | cons v vs ih =>
    cases vs with
    | nil =>
      rw [joinSemi, splitSemi, splitSemiAux_no_semi v [] (hcl v (List.mem_cons_self v []))]
      rfl
    | cons w ws =>
      have hj : joinSemi (v :: w :: ws) = v ++ ';' :: joinSemi (w :: ws) := rfl
      rw [hj, splitSemi,
        splitSemiAux_append v (joinSemi (w :: ws)) [] (hcl v (List.mem_cons_self v _))]
      have := ih (List.cons_ne_nil w ws) (fun x hx => hcl x (List.mem_cons_of_mem v hx))
      rw [splitSemi] at this
      rw [this]
      rfl

theorem joinSemi_ne_nil (v : Str) (vs : List Str) (hv : v ≠ []) :
    joinSemi (v :: vs) ≠ [] := by
  cases vs with
  | nil => simpa [joinSemi] using hv
  | cons w ws =>
    have hj : joinSemi (v :: w :: ws) = v ++ ';' :: joinSemi (w :: ws) := rfl
    rw [hj]
    cases v with
    | nil => exact absurd rfl hv
    | cons c cs => simp

theorem parseNbrs_joinSemi (V : List Str) (hcl : ∀ v ∈ V, v ≠ [] ∧ ';' ∉ v) :
    parseNbrs (joinSemi V) = V.toFinset := by
  cases V with
  | nil => rfl
  | cons v vs =>
    rw [parseNbrs,
      if_neg (joinSemi_ne_nil v vs (hcl v (List.mem_cons_self v vs)).1),
      splitSemi_joinSemi (v :: vs) (List.cons_ne_nil v vs) (fun x hx => (hcl x hx).2)]

/-- The wire names of the two topology methods. -/
def iAmKind : Str := ['i', '-', 'a', 'm']

def iSeeKind : Str := ['i', '-', 's', 'e', 'e']

/-- `TopologyObserver.broadcast_new_neighbours`, including the local
delivery of the broadcast frame back into `process_i_see` with
`source = self.peer_id` and the just-incremented `message_id`.  The
source's "new node" branch would recurse through a second broadcast;
that inner call is unfolded once (after the first pass the self entry
is present — `calculate_reachable_peers` always keeps the root — so the
recursion stops). -/
def broadcast_new_neighbours (st : TopoState) : TopoState :=
  let mid := st.message_id + 1
  let nbrs := parseNbrs (joinSemi (st.peer_ids.map (fun e => e.2)))
  let st0 := { st with message_id := mid }
  match lookupT st0.topology st0.peer_id with
  | some v =>
    if v.1 < mid then
      let st1 := { st0 with topology := upsertT st0.topology st0.peer_id (mid, nbrs) }
      if v.2 ≠ nbrs then calculate_reachable_peers st1 else st1
    else st0
  | Option.none =>
    let st1 := calculate_reachable_peers
      { st0 with topology := upsertT st0.topology st0.peer_id (mid, nbrs) }
    let mid2 := mid + 1
    let st2 := { st1 with message_id := mid2 }
    match lookupT st2.topology st2.peer_id with
    | some v2 =>
      if v2.1 < mid2 then
        let st3 := { st2 with topology := upsertT st2.topology st2.peer_id (mid2, nbrs) }
        if v2.2 ≠ nbrs then calculate_reachable_peers st3 else st3
      else st2
    | Option.none => st2

/-- `TopologyObserver.process_i_see(source, id, payload)` for a frame
arriving from the network (`source ≠ self.peer_id`, guaranteed by C8). -/
def process_i_see (st : TopoState) (source : Str) (id : Nat) (payload : Str) : TopoState :=
  let nbrs := parseNbrs payload
  match lookupT st.topology source with
  | Option.none =>
    let st1 := calculate_reachable_peers
      { st with topology := upsertT st.topology source (id, nbrs) }
    broadcast_new_neighbours st1
  | some v =>
    if v.1 < id then
      let st1 := { st with topology := upsertT st.topology source (id, nbrs) }
      if v.2 ≠ nbrs then calculate_reachable_peers st1 else st1
    else st

/-- Python `peer_ids[k] = v` on the link map. -/
def insLink (l : List (Nat × Str)) (k : Nat) (v : Str) : List (Nat × Str) :=
  if l.any (fun e => e.1 == k) then l.map (fun e => if e.1 = k then (k, v) else e)
  else l ++ [(k, v)]

/-- `TopologyObserver.process_i_am(peer, source)`. -/
def process_i_am (st : TopoState) (peer : Nat) (source : Str) : TopoState :=
  broadcast_new_neighbours { st with peer_ids := insLink st.peer_ids peer source }

/-- Events driving a `TopologyObserver`: peer transitions, a remote
frame demuxed into `notify`, and any other origination by the same
server (which only bumps the shared message counter). -/
inductive TopoEv where
  | peerAdded (p : Nat)
  | peerRemoved (p : Nat)
  | serverOrig
  | notify (p : Nat) (source : Str) (id : Nat) (message : Str)

/-- One event.  `peer_added` unicasts `i-am` (counter bump, no local
delivery); `peer_removed` forgets the link and broadcasts; `notify`
demuxes the leading `method` of the payload exactly like
`TopologyObserver.notify`. -/
def topoStep (st : TopoState) : TopoEv → TopoState
  | .peerAdded _ => { st with message_id := st.message_id + 1 }
  | .peerRemoved p =>
    broadcast_new_neighbours { st with peer_ids := st.peer_ids.filter (fun e => !(e.1 == p)) }
  | .serverOrig => { st with message_id := st.message_id + 1 }
  | .notify p source id message =>
    let kp := chPartition '|' message
    if kp.1 = iAmKind then process_i_am st p source
    else if kp.1 = iSeeKind then process_i_see st source id kp.2
    else st

/-- `TopologyObserver.__init__`. -/
def topoInit (selfId : Str) : TopoState :=
  calculate_reachable_peers ⟨selfId, 0, [], [(selfId, 0, ∅)]⟩

def topoRun (st : TopoState) (evs : List TopoEv) : TopoState := evs.foldl topoStep st

/-- Frames handed to `notify` come from other servers (C8), and peer ids
on the wire are non-empty and `;`-free (they are hex strings). -/
def evValid (selfId : Str) : TopoEv → Prop
  | .notify _ source _ _ => source ≠ selfId ∧ source ≠ [] ∧ ';' ∉ source
  | _ => True

instance (selfId : Str) (ev : TopoEv) : Decidable (evValid selfId ev) := by
  cases ev <;> simp only [evValid] <;> infer_instance

theorem lookupT_cons_eq (e : Str × Nat × Finset Str) (rest : Topo) (k : Str)
    (h : e.1 = k) : lookupT (e :: rest) k = some e.2 := by
  simp [lookupT, List.find?_cons, h]

theorem lookupT_cons_ne (e : Str × Nat × Finset Str) (rest : Topo) (k : Str)
    (h : e.1 ≠ k) : lookupT (e :: rest) k = lookupT rest k := by
  simp [lookupT, List.find?_cons, beq_eq_false_iff_ne.mpr h]

theorem keys_upsertT_mem (t : Topo) (k : Str) (v : Nat × Finset Str)
    (h : t.any (fun e => e.1 == k)) :
    (upsertT t k v).map (fun e => e.1) = t.map (fun e => e.1) := by
  rw [upsertT, if_pos h, List.map_map]
  apply List.map_congr_left
  intro e _
  by_cases he : e.1 = k
  · simp [he]
  · simp [he]

theorem nodupKeys_upsertT (t : Topo) (k : Str) (v : Nat × Finset Str)
    (h : (t.map (fun e => e.1)).Nodup) :
    ((upsertT t k v).map (fun e => e.1)).Nodup := by
  by_cases hany : t.any (fun e => e.1 == k) = true
  · rw [keys_upsertT_mem t k v hany]
    exact h
  · rw [upsertT, if_neg hany, List.map_append]
    rw [List.nodup_append]
    refine ⟨h, List.nodup_singleton k, ?_⟩
    intro x hx hx'
    obtain ⟨e, he, hek⟩ := List.mem_map.mp hx
    rw [List.map_cons, List.map_nil] at hx'
    have : x = k := by simpa using hx'
    subst this
    exact hany (List.any_eq_true.mpr ⟨e, he, by simp [hek]⟩)

theorem lookupT_replace_self (t : Topo) (k : Str) (v : Nat × Finset Str)
    (hex : ∃ e ∈ t, e.1 = k) :
    lookupT (t.map (fun e => if e.1 = k then (k, v) else e)) k = some v := by
  induction t with
  | nil => simp at hex
  | cons e rest ih =>
    by_cases he : e.1 = k
    · rw [List.map_cons, if_pos he]
      exact lookupT_cons_eq (k, v) _ k rfl
    · obtain ⟨e1, he1, hk1⟩ := hex
      have h' : ∃ x ∈ rest, x.1 = k := by
        rcases List.mem_cons.mp he1 with rfl | hmem
        · exact absurd hk1 he
        · exact ⟨e1, hmem, hk1⟩
      rw [List.map_cons, if_neg he, lookupT_cons_ne _ _ _ he]
      exact ih h'

theorem lookupT_append_self (t : Topo) (k : Str) (v : Nat × Finset Str)
    (hall : ∀ e ∈ t, e.1 ≠ k) : lookupT (t ++ [(k, v)]) k = some v := by
  induction t with
  | nil => exact lookupT_cons_eq (k, v) [] k rfl
  | cons e rest ih =>
    rw [List.cons_append, lookupT_cons_ne _ _ _ (hall e (List.mem_cons_self e rest))]
    exact ih (fun x hx => hall x (List.mem_cons_of_mem e hx))

theorem lookupT_upsertT_self (t : Topo) (k : Str) (v : Nat × Finset Str) :
    lookupT (upsertT t k v) k = some v := by
  rw [upsertT]
  split
  · rename_i hany
    rw [List.any_eq_true] at hany
    obtain ⟨e0, he0, hk0⟩ := hany
    exact lookupT_replace_self t k v ⟨e0, he0, by simpa using hk0⟩
  · rename_i hany
    refine lookupT_append_self t k v ?_
    simp only [List.any_eq_true, not_exists] at hany
    intro e he hk
    exact hany e ⟨he, by simp [hk]⟩

theorem lookupT_replace_ne (t : Topo) (k k' : Str) (v : Nat × Finset Str) (h : k' ≠ k) :
    lookupT (t.map (fun e => if e.1 = k then (k, v) else e)) k' = lookupT t k' := by
  induction t with
  | nil => rfl
  | cons e rest ih =>
    rw [List.map_cons]
    by_cases he : e.1 = k
    · rw [if_pos he, lookupT_cons_ne (k, v) _ k' (fun hk => h hk.symm),
        lookupT_cons_ne e rest k' (fun hek => h (hek.symm.trans he))]
      exact ih
    · rw [if_neg he]
      by_cases hek' : e.1 = k'
      · rw [lookupT_cons_eq e _ k' hek', lookupT_cons_eq e rest k' hek']
      · rw [lookupT_cons_ne e _ k' hek', lookupT_cons_ne e rest k' hek']
        exact ih

theorem lookupT_append_ne (t : Topo) (k k' : Str) (v : Nat × Finset Str) (h : k' ≠ k) :
    lookupT (t ++ [(k, v)]) k' = lookupT t k' := by
  induction t with
  | nil =>
    rw [List.nil_append, lookupT_cons_ne (k, v) [] k' (fun hk => h hk.symm)]
  | cons e rest ih =>
    rw [List.cons_append]
    by_cases hek' : e.1 = k'
    · rw [lookupT_cons_eq e _ k' hek', lookupT_cons_eq e rest k' hek']
    · rw [lookupT_cons_ne e _ k' hek', lookupT_cons_ne e rest k' hek']
      exact ih

theorem lookupT_upsertT_ne (t : Topo) (k k' : Str) (v : Nat × Finset Str)
    (h : k' ≠ k) : lookupT (upsertT t k v) k' = lookupT t k' := by
  rw [upsertT]
  split
  · exact lookupT_replace_ne t k k' v h
  · exact lookupT_append_ne t k k' v h

theorem lookupT_eq_of_mem_nodup (t : Topo) (k : Str) (v : Nat × Finset Str)
    (hnodup : (t.map (fun e => e.1)).Nodup) (hmem : (k, v) ∈ t) :
    lookupT t k = some v := by
  induction t with
  | nil => cases hmem
  | cons e rest ih =>
    rcases List.mem_cons.mp hmem with rfl | hmem'
    · exact lookupT_cons_eq (k, v) rest k rfl
    · have hne : e.1 ≠ k := by
        intro hek
        rw [List.map_cons, List.nodup_cons] at hnodup
        apply hnodup.1
        rw [hek]
        exact List.mem_map.mpr ⟨(k, v), hmem', rfl⟩
      rw [lookupT_cons_ne e rest k hne]
      exact ih (List.nodup_cons.mp (List.map_cons .. ▸ hnodup)).2 hmem'

theorem nodupKeys_filter (t : Topo) (p : Str × Nat × Finset Str → Bool)
    (h : (t.map (fun e => e.1)).Nodup) :
    ((t.filter p).map (fun e => e.1)).Nodup :=
  h.sublist ((t.filter_sublist).map (fun e => e.1))

theorem calc_fields (st : TopoState) :
    (calculate_reachable_peers st).peer_id = st.peer_id ∧
    (calculate_reachable_peers st).message_id = st.message_id ∧
    (calculate_reachable_peers st).peer_ids = st.peer_ids :=
  ⟨rfl, rfl, rfl⟩

theorem calc_preserves_self (st : TopoState) (v : Nat × Finset Str)
    (hnodup : (st.topology.map (fun e => e.1)).Nodup)
    (h : lookupT st.topology st.peer_id = some v) :
    lookupT (calculate_reachable_peers st).topology st.peer_id = some v := by
  have hmem := lookupT_some_mem h
  have hroot := (reachSet_closed st.topology st.peer_id).1
  apply lookupT_eq_of_mem_nodup
  · exact nodupKeys_filter st.topology _ hnodup
  · apply List.mem_filter.mpr
    exact ⟨hmem, by rw [decide_eq_true_eq]; exact hroot⟩

theorem nodupKeys_calc (st : TopoState)
    (hnodup : (st.topology.map (fun e => e.1)).Nodup) :
    ((calculate_reachable_peers st).topology.map (fun e => e.1)).Nodup :=
  nodupKeys_filter st.topology _ hnodup

/-- The induction invariant for a `TopologyObserver` coupled with its
server: topology keys are unique, known direct-peer ids are well-formed,
and the self entry is present, versioned no later than the shared
counter, and carries exactly the current direct-peer id set. -/
def TopoInv (st : TopoState) : Prop :=
  (st.topology.map (fun e => e.1)).Nodup ∧
  (∀ v ∈ st.peer_ids.map (fun e => e.2), v ≠ [] ∧ ';' ∉ v) ∧
  ∃ ver, lookupT st.topology st.peer_id
      = some (ver, (st.peer_ids.map (fun e => e.2)).toFinset) ∧ ver ≤ st.message_id

theorem broadcast_eq_of_lookup (st : TopoState) (ver : Nat) (old : Finset Str)
    (hlook : lookupT st.topology st.peer_id = some (ver, old))
    (hver : ver ≤ st.message_id) :
    broadcast_new_neighbours st =
      (if old ≠ parseNbrs (joinSemi (st.peer_ids.map (fun e => e.2))) then
        calculate_reachable_peers
          ⟨st.peer_id, st.message_id + 1, st.peer_ids,
            upsertT st.topology st.peer_id (st.message_id + 1,
              parseNbrs (joinSemi (st.peer_ids.map (fun e => e.2))))⟩
      else
        ⟨st.peer_id, st.message_id + 1, st.peer_ids,
          upsertT st.topology st.peer_id (st.message_id + 1,
            parseNbrs (joinSemi (st.peer_ids.map (fun e => e.2))))⟩) := by
  unfold broadcast_new_neighbours
  simp only [hlook]
  rw [if_pos (by omega : ver < st.message_id + 1)]

theorem calc_peer_id (st : TopoState) :
    (calculate_reachable_peers st).peer_id = st.peer_id := rfl

theorem calc_peer_ids (st : TopoState) :
    (calculate_reachable_peers st).peer_ids = st.peer_ids := rfl

theorem calc_message_id (st : TopoState) :
    (calculate_reachable_peers st).message_id = st.message_id := rfl

theorem TopoInv_broadcast (st : TopoState)
    (hnodup : (st.topology.map (fun e => e.1)).Nodup)
    (hclean : ∀ v ∈ st.peer_ids.map (fun e => e.2), v ≠ [] ∧ ';' ∉ v)
    (ver : Nat) (old : Finset Str)
    (hlook : lookupT st.topology st.peer_id = some (ver, old))
    (hver : ver ≤ st.message_id) :
    TopoInv (broadcast_new_neighbours st) := by
  have hnbrs : parseNbrs (joinSemi (st.peer_ids.map (fun e => e.2)))
      = (st.peer_ids.map (fun e => e.2)).toFinset := parseNbrs_joinSemi _ hclean
  rw [broadcast_eq_of_lookup st ver old hlook hver]
  split
  · refine ⟨nodupKeys_calc _ (nodupKeys_upsertT _ _ _ hnodup), ?_, st.message_id + 1, ?_, ?_⟩
    · simp only [calc_peer_ids]
      exact hclean
    · simp only [calc_peer_ids, calc_peer_id]
      rw [← hnbrs]
      exact calc_preserves_self _ _ (nodupKeys_upsertT _ _ _ hnodup)
        (lookupT_upsertT_self _ _ _)
    · simp only [calc_message_id]
      exact le_rfl
  · refine ⟨nodupKeys_upsertT _ _ _ hnodup, hclean, st.message_id + 1, ?_, le_rfl⟩
    rw [← hnbrs]
    exact lookupT_upsertT_self _ _ _

theorem TopoInv_process_i_see (st : TopoState) (source : Str) (id : Nat) (payload : Str)
    (h : TopoInv st) (hs : source ≠ st.peer_id) :
    TopoInv (process_i_see st source id payload) := by
  obtain ⟨hnodup, hclean, ver, hlook, hver⟩ := h
  unfold process_i_see
  cases hl : lookupT st.topology source with
  | none =>
    simp only [hl]
    have h1 : lookupT (upsertT st.topology source (id, parseNbrs payload)) st.peer_id
        = some (ver, (st.peer_ids.map (fun e => e.2)).toFinset) := by
      rw [lookupT_upsertT_ne _ _ _ _ (Ne.symm hs)]
      exact hlook
    refine TopoInv_broadcast
      (calculate_reachable_peers
        { st with topology := upsertT st.topology source (id, parseNbrs payload) })
      (nodupKeys_calc _ (nodupKeys_upsertT _ _ _ hnodup)) ?_ ver
      ((st.peer_ids.map (fun e => e.2)).toFinset) ?_ ?_
    · simp only [calc_peer_ids]
      exact hclean
    · simp only [calc_peer_ids, calc_peer_id]
      exact calc_preserves_self _ _ (nodupKeys_upsertT _ _ _ hnodup) h1
    · simp only [calc_message_id]
      exact hver
  | some v =>
    simp only [hl]
    split
    · split
      · refine ⟨nodupKeys_calc _ (nodupKeys_upsertT _ _ _ hnodup), ?_, ver, ?_, ?_⟩
        · simp only [calc_peer_ids]
          exact hclean
        · simp only [calc_peer_ids, calc_peer_id]
          apply calc_preserves_self _ _ (nodupKeys_upsertT _ _ _ hnodup)
          rw [lookupT_upsertT_ne _ _ _ _ (Ne.symm hs)]
          exact hlook
        · simp only [calc_message_id]
          exact hver
      · refine ⟨nodupKeys_upsertT _ _ _ hnodup, hclean, ver, ?_, hver⟩
        rw [lookupT_upsertT_ne _ _ _ _ (Ne.symm hs)]
        exact hlook
    · exact ⟨hnodup, hclean, ver, hlook, hver⟩

theorem insLink_snd_mem (l : List (Nat × Str)) (k : Nat) (s v : Str)
    (h : v ∈ (insLink l k s).map (fun e => e.2)) :
    v ∈ l.map (fun e => e.2) ∨ v = s := by
  rw [insLink] at h
  split at h
  · obtain ⟨e, he, rfl⟩ := List.mem_map.mp h
    obtain ⟨e0, he0, heq⟩ := List.mem_map.mp he
    by_cases hc : e0.1 = k
    · rw [if_pos hc] at heq
      right
      rw [← heq]
    · rw [if_neg hc] at heq
      left
      exact List.mem_map.mpr ⟨e0, he0, by rw [heq]⟩
  · rw [List.map_append] at h
    rcases List.mem_append.mp h with h | h
    · left; exact h
    · right; simpa using h

theorem broadcast_peer_id (st : TopoState) :
    (broadcast_new_neighbours st).peer_id = st.peer_id := by
  unfold broadcast_new_neighbours
  dsimp only
  split
  · split
    · split <;> rfl
    · rfl
  · split
    · split
      · split <;> rfl
      · rfl
    · rfl

theorem process_i_see_peer_id (st : TopoState) (source : Str) (id : Nat) (payload : Str) :
    (process_i_see st source id payload).peer_id = st.peer_id := by
  unfold process_i_see
  dsimp only
  split
  · rw [broadcast_peer_id]
    rfl
  · split
    · split <;> rfl
    · rfl

theorem process_i_am_peer_id (st : TopoState) (p : Nat) (source : Str) :
    (process_i_am st p source).peer_id = st.peer_id := by
  unfold process_i_am
  rw [broadcast_peer_id]

theorem topoStep_peer_id (st : TopoState) (ev : TopoEv) :
    (topoStep st ev).peer_id = st.peer_id := by
  cases ev with
  | peerAdded p => rfl
  | serverOrig => rfl
  | peerRemoved p =>
    show (broadcast_new_neighbours _).peer_id = st.peer_id
    rw [broadcast_peer_id]
  | notify p source id message =>
    show (if _ then process_i_am st p source else if _ then process_i_see st source id _
      else st).peer_id = st.peer_id
    split
    · rw [process_i_am_peer_id]
    · split
      · rw [process_i_see_peer_id]
      · rfl

theorem TopoInv_step (st : TopoState) (ev : TopoEv) (h : TopoInv st)
    (hv : evValid st.peer_id ev) : TopoInv (topoStep st ev) := by
  obtain ⟨hnodup, hclean, ver, hlook, hver⟩ := h
  cases ev with
  | peerAdded p => exact ⟨hnodup, hclean, ver, hlook, Nat.le_succ_of_le hver⟩
  | serverOrig => exact ⟨hnodup, hclean, ver, hlook, Nat.le_succ_of_le hver⟩
  | peerRemoved p =>
    refine TopoInv_broadcast
      { st with peer_ids := st.peer_ids.filter (fun e => !(e.1 == p)) }
      hnodup ?_ ver ((st.peer_ids.map (fun e => e.2)).toFinset) hlook hver
    intro v hv'
    obtain ⟨e, he, rfl⟩ := List.mem_map.mp hv'
    exact hclean e.2 (List.mem_map.mpr ⟨e, List.mem_of_mem_filter he, rfl⟩)
  | notify p source id message =>
    obtain ⟨hs, hne, hsemi⟩ := hv
    show TopoInv (if _ then process_i_am st p source else if _ then
      process_i_see st source id _ else st)
    split
    · refine TopoInv_broadcast { st with peer_ids := insLink st.peer_ids p source }
        hnodup ?_ ver ((st.peer_ids.map (fun e => e.2)).toFinset) hlook hver
      intro v hv'
      rcases insLink_snd_mem st.peer_ids p source v hv' with hmem | rfl
      · exact hclean v hmem
      · exact ⟨hne, hsemi⟩
    · split
      · exact TopoInv_process_i_see st source id _ ⟨hnodup, hclean, ver, hlook, hver⟩ hs
      · exact ⟨hnodup, hclean, ver, hlook, hver⟩

theorem topoRun_peer_id (st : TopoState) (evs : List TopoEv) :
    (topoRun st evs).peer_id = st.peer_id := by
  induction evs generalizing st with
  | nil => rfl
  | cons e rest ih =>
    show (topoRun (topoStep st e) rest).peer_id = st.peer_id
    rw [ih, topoStep_peer_id]

theorem TopoInv_run (st : TopoState) (evs : List TopoEv) (h : TopoInv st)
    (hv : ∀ ev ∈ evs, evValid st.peer_id ev) : TopoInv (topoRun st evs) := by
  induction evs generalizing st with
  | nil => exact h
  | cons e rest ih =>
    show TopoInv (topoRun (topoStep st e) rest)
    refine ih (topoStep st e) (TopoInv_step st e h (hv e (List.mem_cons_self e rest))) ?_
    intro ev hev
    rw [topoStep_peer_id]
    exact hv ev (List.mem_cons_of_mem e hev)

theorem TopoInv_init (selfId : Str) : TopoInv (topoInit selfId) := by
  have hnodup0 : (([(selfId, 0, (∅ : Finset Str))] : Topo).map (fun e => e.1)).Nodup := by
    simp
  have hlook0 : lookupT [(selfId, 0, (∅ : Finset Str))] selfId = some (0, ∅) :=
    lookupT_cons_eq (selfId, 0, ∅) [] selfId rfl
  refine ⟨nodupKeys_calc _ hnodup0, ?_, 0, ?_, le_rfl⟩
  · intro v hv
    rw [show (topoInit selfId).peer_ids = [] from rfl] at hv
    simp at hv
  · exact calc_preserves_self ⟨selfId, 0, [], [(selfId, 0, ∅)]⟩ (0, ∅) hnodup0 hlook0

/-- C6 amended: in every reachable state of a `TopologyObserver` (after
construction and any sequence of peer/notify events from other
servers), the local `peer_id` is a key of the topology map and its
stored neighbour set is the current set of known directly-connected
peer ids — but its stored version is NOT always `0`: it is overwritten
with the broadcast's `message_id` each time the observer broadcasts a
new neighbour list (it is only bounded by the shared counter). -/
theorem C6_self_entry_amended (selfId : Str) (evs : List TopoEv)
    (hv : ∀ ev ∈ evs, evValid selfId ev) :
    ∃ ver, lookupT (topoRun (topoInit selfId) evs).topology selfId
        = some (ver,
          ((topoRun (topoInit selfId) evs).peer_ids.map (fun e => e.2)).toFinset) ∧
      ver ≤ (topoRun (topoInit selfId) evs).message_id := by
  have hrun := TopoInv_run (topoInit selfId) evs (TopoInv_init selfId) hv
  obtain ⟨_, _, ver, hlook, hver⟩ := hrun
  rw [topoRun_peer_id] at hlook
  exact ⟨ver, hlook, hver⟩

/-- Counterexample to C6 as stated: after a single `peer_removed` event
on a fresh observer (server id `A`), the self entry's stored version is
`1`, not `0` — the local fast-path delivery of the observer's own
`i-see` broadcast overwrote it with the broadcast's `message_id`. -/
theorem C6_self_entry_counterexample :
    (lookupT (topoRun (topoInit ['A']) [TopoEv.peerRemoved 0]).topology ['A']).map
        (fun v => v.1) = some 1 ∧ some (1 : Nat) ≠ some (0 : Nat) :=
  ⟨by decide, by decide⟩

/-- Witness for the amended C6: one remote `i-am` from server `B`. -/
theorem C6_self_entry_witness :
    (∀ ev ∈ [TopoEv.notify 0 ['B'] 5 iAmKind], evValid ['A'] ev) ∧
    ∃ ver, lookupT (topoRun (topoInit ['A']) [TopoEv.notify 0 ['B'] 5 iAmKind]).topology ['A']
        = some (ver,
          ((topoRun (topoInit ['A']) [TopoEv.notify 0 ['B'] 5 iAmKind]).peer_ids.map
            (fun e => e.2)).toFinset) ∧
      ver ≤ (topoRun (topoInit ['A']) [TopoEv.notify 0 ['B'] 5 iAmKind]).message_id :=
  ⟨by decide, C6_self_entry_amended ['A'] [TopoEv.notify 0 ['B'] 5 iAmKind] (by decide)⟩

end Talker
